import Mathlib

/-!
Verification of the project-size-analyzer core pipeline (src/main.py).

The development shallowly embeds the program:
* `normalize_name` models `normalize_name` (main.py:63-65), i.e.
  `re.sub(r'[^a-z0-9]', '', name.lower())` as lowercase-map followed by a
  character filter.
* `FSNode` is a static snapshot of a filesystem subtree; directories carry a
  `listable` flag (an unlistable directory is one whose `scandir` fails, which
  `os.walk` silently skips) and files carry a `statOk` flag (a file whose
  `stat` raises is skipped by the per-file handler in `get_folder_size`).
* `get_folder_size` models `get_folder_size` (main.py:103-123): an `os.walk`
  over the subtree summing sizes of regular, non-symlink files whose stat
  succeeds; symlinks contribute nothing and are never descended into.
* `findIn` models `find_target_folders_in_project` (main.py:125-143): a
  top-down `os.walk`; at each listed directory every subdirectory whose
  normalized name is in the target set is recorded, and no directory is
  pruned.
* `adjustGo` models the nested-size adjustment double loop (main.py:229-239).
  The Python code iterates `for parent_result in all_results` and subtracts,
  for every child record strictly inside the parent's path, the child's
  CURRENT `size_bytes` (the copy `list(all_results)` is shallow, so the dicts
  are shared).  `adjustGo done todo` processes the outer loop with `done` the
  already-processed prefix (holding adjusted values) and `todo` the rest.
* `sortRecords` models `sorted(all_results, key=..., reverse=True)`
  (main.py:256) as the stable insertion sort with the "size greater or equal"
  relation; Python's `sorted` is specified to be stable, and a stable sort
  with respect to a total preorder is extensionally unique.
* `runScan` models the orchestration in `main` (main.py:185-256): root
  validation, project discovery, per-project find + size, global adjust, sort.

Paths are modelled as their `PurePath.parts` segment lists, so Python's
`Path.is_relative_to` is list-prefix on segments and Python `Path` equality is
list equality.
-/

/-- Character class `[a-z0-9]` of the regex in `normalize_name`. -/
def isLowerAlnum (c : Char) : Bool :=
  ('a' ≤ c && c ≤ 'z') || ('0' ≤ c && c ≤ '9')

/-- Model of `normalize_name` (main.py:63-65): `name.lower()` maps each
character to lowercase, and `re.sub(r'[^a-z0-9]', '', ·)` deletes every
character outside `[a-z0-9]`. -/
def normalize_name (s : String) : String :=
  ⟨(s.data.map Char.toLower).filter isLowerAlnum⟩

/-- Spec-side single-pass formulation of normalization: lowercase each
character and keep it exactly when it is an ASCII lowercase letter or digit. -/
def lowerKeepAlnum : List Char → List Char
  | [] => []
  | c :: cs =>
    if isLowerAlnum c.toLower then c.toLower :: lowerKeepAlnum cs else lowerKeepAlnum cs

/-- Split a character list on `'/'`, dropping empty segments. -/
def segsAux : List Char → List Char → List String
  | [], acc => if acc = [] then [] else [⟨acc.reverse⟩]
  | c :: cs, acc =>
    if c = '/' then
      if acc = [] then segsAux cs [] else ⟨acc.reverse⟩ :: segsAux cs []
    else segsAux cs (c :: acc)

/-- Model of `PurePosixPath(s).parts`: the root `"/"` (when the path is
absolute) followed by the nonempty `/`-separated segments. -/
def pathParts (s : String) : List String :=
  match s.data with
  | '/' :: _ => "/" :: segsAux s.data []
  | _ => segsAux s.data []

/-- One matched-folder result record (the dict built in main.py:220-227),
restricted to the fields the adjustment, sorting and totalling logic reads:
`full_path` (as its segment list) and `size_bytes`.  `size_bytes` is an
integer that the adjustment step may in principle drive negative. -/
structure MatchRecord where
  fullPath : List String
  sizeBytes : Int
deriving DecidableEq, Repr

/-- The guard of the adjustment loop (main.py:235-236): the child record is a
strict descendant of the parent record, i.e. the paths differ and
`child.full_path.is_relative_to(parent.full_path)` — on segment lists, the
parent's parts are a prefix of the child's parts. -/
def descOf (c p : MatchRecord) : Prop :=
  p.fullPath ≠ c.fullPath ∧ p.fullPath <+: c.fullPath

instance (c p : MatchRecord) : Decidable (descOf c p) :=
  inferInstanceAs (Decidable (p.fullPath ≠ c.fullPath ∧ p.fullPath <+: c.fullPath))

/-- Total subtracted from record `p` by one pass of the inner loop
(main.py:233-239) when the shared record list currently holds `l`: the sum of
the current sizes of all records strictly inside `p`. -/
def innerDelta (p : MatchRecord) (l : List MatchRecord) : Int :=
  (l.map fun c => if descOf c p then c.sizeBytes else 0).sum

/-- The outer loop of the adjustment (main.py:232-239).  `done` is the
already-processed prefix of the shared list (its records hold adjusted
values), `todo` the records not yet processed (still holding raw values); the
inner loop reads the whole current list `done ++ todo`. -/
def adjustGo : List MatchRecord → List MatchRecord → List MatchRecord
  | done, [] => done
  | done, p :: rest =>
    adjustGo
      (done ++ [{ p with sizeBytes := p.sizeBytes - innerDelta p (done ++ p :: rest) }])
      rest

/-- The nested-size adjustment step of `main` applied to the full record list. -/
def adjust (rs : List MatchRecord) : List MatchRecord :=
  adjustGo [] rs

/-- The raw-snapshot formula of the spec (§4.4): every record's final size is
its raw size minus the sum of the RAW sizes of all of its strict
descendants. -/
def adjustSpec (rs : List MatchRecord) : List MatchRecord :=
  rs.map fun p => { p with sizeBytes := p.sizeBytes - innerDelta p rs }

/-- Discovery-order property of a scan's record list: no record appears before
one of its strict ancestors (equivalently, every ancestor record appears
before each of its descendant records). -/
def AncestorsFirst (rs : List MatchRecord) : Prop :=
  rs.Pairwise fun a b => ¬ descOf a b

instance (rs : List MatchRecord) : Decidable (AncestorsFirst rs) :=
  inferInstanceAs (Decidable (rs.Pairwise fun a b => ¬ descOf a b))

/-- The comparison used by `sorted(..., key=lambda x: x["size_bytes"],
reverse=True)` (main.py:256): record `a` may come before record `b` when its
size is at least `b`'s. -/
def sizeGe (a b : MatchRecord) : Prop :=
  b.sizeBytes ≤ a.sizeBytes

instance : DecidableRel sizeGe :=
  fun a b => inferInstanceAs (Decidable (b.sizeBytes ≤ a.sizeBytes))

instance : IsTotal MatchRecord sizeGe :=
  ⟨fun a b => le_total b.sizeBytes a.sizeBytes⟩

instance : IsTrans MatchRecord sizeGe :=
  ⟨fun _ _ _ hab hbc => le_trans hbc hab⟩

/-- Model of Python's `sorted(l, key=lambda x: x["size_bytes"], reverse=True)`
(main.py:256).  Python's `sorted` is documented to be stable, and the stable
sort w.r.t. the total preorder `sizeGe` is extensionally unique, so the stable
`List.insertionSort` denotes the same list. -/
def sortRecords (l : List MatchRecord) : List MatchRecord :=
  List.insertionSort sizeGe l

/-- The final result sequence handed to the presentation/export collaborators
(main.py:256): the adjusted records sorted by size descending. -/
def finalResults (rs : List MatchRecord) : List MatchRecord :=
  sortRecords (adjust rs)

mutual
/-- Snapshot of one filesystem node.  `file size statOk` is a regular file of
`size` bytes whose `stat` succeeds iff `statOk`; `symlink` is a symbolic link
(of any target — the scanner never reads targets); `dir listable entries` is a
directory whose listing succeeds iff `listable`. -/
inductive FSNode where
  | file (size : Nat) (statOk : Bool)
  | symlink
  | dir (listable : Bool) (entries : FSEntries)
deriving DecidableEq, Repr
/-- The named entries of a directory, in filesystem listing order. -/
inductive FSEntries where
  | nil
  | cons (name : String) (child : FSNode) (rest : FSEntries)
deriving DecidableEq, Repr
end

/-- Whether a node is a directory (what `os.walk` places in `dirnames` and
what `d.is_dir()` keeps as a project directory). -/
def isDirNode : FSNode → Bool
  | .dir _ _ => true
  | _ => false

/-- Per-entry byte contribution of the filename loop in `get_folder_size`
(main.py:112-119): a regular non-symlink file contributes its size when its
stat succeeds, and is skipped (0 bytes) otherwise; symlinks and directories
contribute nothing as files. -/
def fileC : FSNode → Nat
  | .file sz ok => if ok then sz else 0
  | _ => 0

mutual
/-- Spec-side "byte total of a subtree": the sum of the sizes of all regular,
non-symlink files anywhere below the node, independent of listability or stat
failures.  Directories and symlinks themselves contribute no bytes. -/
def trueBytes : FSNode → Nat
  | .file sz _ => sz
  | .symlink => 0
  | .dir _ es => trueBytesEntries es
def trueBytesEntries : FSEntries → Nat
  | .nil => 0
  | .cons _ c rest => trueBytes c + trueBytesEntries rest
end

mutual
/-- Model of `get_folder_size` (main.py:103-123): `os.walk` from the node.  A
non-directory or an unlistable directory yields no triples, so the total is
the 0 accumulated so far.  For a listable directory, files contribute via
`fileC` and subdirectories are walked recursively; symlinks are never counted
nor followed. -/
def get_folder_size : FSNode → Nat
  | .dir true es => walkFiles es
  | _ => 0
def walkFiles : FSEntries → Nat
  | .nil => 0
  | .cons _ c rest => fileC c + get_folder_size c + walkFiles rest
end

/-- First entry with the given name (directory entries of a real filesystem
have unique names; `WFNode` states that). -/
def lookupEntry : FSEntries → String → Option FSNode
  | .nil, _ => none
  | .cons n c rest, s => if n = s then some c else lookupEntry rest s

/-- Resolve a segment path from a node, structurally (independent of listing
permissions): used to speak about "the subtree at a path". -/
def nodeAt : FSNode → List String → Option FSNode
  | n, [] => some n
  | .dir _ es, s :: rest =>
    match lookupEntry es s with
    | some c => nodeAt c rest
    | none => none
  | _, _ :: _ => none

/-- Byte total of the subtree at a path (0 if the path does not resolve). -/
def sizeAt (n : FSNode) (p : List String) : Nat :=
  (nodeAt n p).elim 0 trueBytes

/-- Replace the child of the first entry with the given name. -/
def modifyEntry : FSEntries → String → (FSNode → FSNode) → FSEntries
  | .nil, _, _ => .nil
  | .cons n c rest, s, f =>
    if n = s then .cons n (f c) rest else .cons n c (modifyEntry rest s f)

/-- Replace the subtree at a path by an empty directory (identity when the
path does not resolve): the frame used to reason about disjoint subtrees. -/
def pruneAt : FSNode → List String → FSNode
  | _, [] => .dir true .nil
  | .dir b es, s :: rest => .dir b (modifyEntry es s fun c => pruneAt c rest)
  | n, _ :: _ => n

/-- Two segment paths neither of which is a prefix of the other: their
subtrees are disjoint. -/
def PathIncomp (p q : List String) : Prop :=
  ¬ p <+: q ∧ ¬ q <+: p

instance (p q : List String) : Decidable (PathIncomp p q) :=
  inferInstanceAs (Decidable (¬ p <+: q ∧ ¬ q <+: p))

mutual
/-- Model of the `os.walk` loop of `find_target_folders_in_project`
(main.py:133-143), returning matched paths relative to the walked node in
discovery order: for each listed directory, first the matches among its
immediate subdirectories in listing order, then recursively the matches
inside each subdirectory.  Nothing is pruned. -/
def findIn (t : List String) : FSNode → List (List String)
  | .dir true es => matchEntries t es ++ walkSubdirs t es
  | _ => []
/-- Matches among the immediate entries: subdirectories whose normalized name
is in the normalized target set (main.py:136-139). -/
def matchEntries (t : List String) : FSEntries → List (List String)
  | .nil => []
  | .cons n c rest =>
    (if isDirNode c = true ∧ normalize_name n ∈ t then [[n]] else []) ++ matchEntries t rest
/-- Recursive part of the walk over the subdirectories, in listing order. -/
def walkSubdirs (t : List String) : FSEntries → List (List String)
  | .nil => []
  | .cons n c rest => (findIn t c).map (fun p => n :: p) ++ walkSubdirs t rest
end

/-- Model of `find_target_folders_in_project(project_dir, targets)`
(main.py:125-143) with the source's argument order. -/
def find_target_folders_in_project (project_dir : FSNode) (targets : List String) :
    List (List String) :=
  findIn targets project_dir

/-- Resolve a path the way the walk reaches it: every traversed directory
must be listable (the final node need not be). -/
def reach : FSNode → List String → Option FSNode
  | n, [] => some n
  | .dir true es, s :: rest =>
    match lookupEntry es s with
    | some c => reach c rest
    | none => none
  | _, _ :: _ => none

/-- Entry names of a directory, in listing order. -/
def namesOf : FSEntries → List String
  | .nil => []
  | .cons n _ rest => n :: namesOf rest

mutual
/-- Well-formed filesystem snapshot: entry names are unique within each
directory, as on a real filesystem. -/
def WFNode : FSNode → Bool
  | .dir _ es => decide (namesOf es).Nodup && WFEntries es
  | _ => true
def WFEntries : FSEntries → Bool
  | .nil => true
  | .cons _ c rest => WFNode c && WFEntries rest
end

mutual
/-- Fully accessible snapshot: every directory is listable and every file's
stat succeeds. -/
def cleanFS : FSNode → Bool
  | .file _ ok => ok
  | .symlink => true
  | .dir b es => b && cleanEntries es
def cleanEntries : FSEntries → Bool
  | .nil => true
  | .cons _ c rest => cleanFS c && cleanEntries rest
end

/-- Concatenation of directory-entry lists. -/
def appendE : FSEntries → FSEntries → FSEntries
  | .nil, e => e
  | .cons n c rest, e => .cons n c (appendE rest e)

/-- Records produced for one project directory (main.py:209-227): one record
per found path, sized by `get_folder_size`, with the project name prepended
to form the full path. -/
def projectRecords (targets : List String) (pname : String) (proj : FSNode) :
    List MatchRecord :=
  (findIn targets proj).map fun p =>
    ⟨pname :: p, ((nodeAt proj p).elim 0 get_folder_size : Nat)⟩

/-- Records accumulated over the project directories found directly under the
root (main.py:199, 207-227): only entries that are directories are projects. -/
def rootRecords (targets : List String) : FSEntries → List MatchRecord
  | .nil => []
  | .cons n c rest =>
    (if isDirNode c then projectRecords targets n c else []) ++ rootRecords targets rest

/-- Model of the orchestration in `main` (main.py:185-256): `none` is a
missing root path; a non-directory root or a root whose listing is denied
aborts with exit status 1 (main.py:185-187, 198-205); otherwise the pipeline
runs: normalize targets, find, size, adjust, sort. -/
def runScan (root : Option FSNode) (rawTargets : List String) :
    Except Nat (List MatchRecord) :=
  match root with
  | some (.dir true es) =>
    .ok (finalResults (rootRecords (rawTargets.map normalize_name) es))
  | _ => .error 1

/-- Whether the root validation of `main` passes: the path exists, is a
directory, and its listing succeeds. -/
def rootOk : Option FSNode → Bool
  | some (.dir true _) => true
  | _ => false

/-- A directory-entry list contains an entry of the given name and child
(irrespective of position). -/
def hasEntry : FSEntries → String → FSNode → Prop
  | .nil, _, _ => False
  | .cons n c rest, s, d => (n = s ∧ c = d) ∨ hasEntry rest s d

/-- Specification of a matched path: it is nonempty (splits as `q ++ [s]`),
it resolves from the node through listable directories to some child that is
itself a directory, and its final segment normalizes into the target set. -/
def MatchSpec (t : List String) (N : FSNode) (p : List String) : Prop :=
  ∃ q s c, p = q ++ [s] ∧ reach N p = some c ∧ isDirNode c = true ∧ normalize_name s ∈ t

/-- Example snapshot: one project holding a matched folder "Data in" (a
1024-byte file plus a nested matched folder "Email" with a 512-byte file). -/
def exFS2 : FSNode :=
  .dir true (.cons "proj"
    (.dir true (.cons "Data in"
      (.dir true
        (.cons "f.txt" (.file 1024 true)
          (.cons "Email" (.dir true (.cons "g.txt" (.file 512 true) .nil)) .nil)))
      .nil))
    .nil)

/-- Scan records of `exFS2` in discovery order; raw sizes are the subtree
byte totals (1536 and 512). -/
def exRecs2 : List MatchRecord :=
  [⟨["proj", "Data in"], 1536⟩, ⟨["proj", "Data in", "Email"], 512⟩]

/-- Example snapshot with three matched folders nested inside one another; the
only file (100 bytes) lies in the innermost one, so all three subtree totals
are 100. -/
def exFS3 : FSNode :=
  .dir true (.cons "proj"
    (.dir true (.cons "a"
      (.dir true (.cons "b"
        (.dir true (.cons "c"
          (.dir true (.cons "f.txt" (.file 100 true) .nil))
          .nil))
        .nil))
      .nil))
    .nil)

/-- Scan records of `exFS3` in discovery order: every raw size is the true
100-byte subtree total. -/
def exRecs3 : List MatchRecord :=
  [⟨["proj", "a"], 100⟩, ⟨["proj", "a", "b"], 100⟩, ⟨["proj", "a", "b", "c"], 100⟩]

/-- The same three records with the two outermost swapped: a permutation of
`exRecs3`. -/
def exRecs3Swap : List MatchRecord :=
  [⟨["proj", "a", "b"], 100⟩, ⟨["proj", "a"], 100⟩, ⟨["proj", "a", "b", "c"], 100⟩]

/-- Example project directory `project/DataIn/Email` where both `DataIn` and
`Email` are matched targets. -/
def exFind : FSNode :=
  .dir true (.cons "DataIn" (.dir true (.cons "Email" (.dir true .nil) .nil)) .nil)

/-- Example folder with files of 5 and 10 bytes at top level and a 5-byte file
one level down. -/
def exSize : FSNode :=
  .dir true
    (.cons "a.txt" (.file 5 true)
      (.cons "b.txt" (.file 10 true)
        (.cons "sub" (.dir true (.cons "c.txt" (.file 5 true) .nil)) .nil)))

theorem innerDelta_append (p : MatchRecord) (l₁ l₂ : List MatchRecord) :
    innerDelta p (l₁ ++ l₂) = innerDelta p l₁ + innerDelta p l₂ := by
  simp [innerDelta]

theorem innerDelta_eq_zero (p : MatchRecord) (l : List MatchRecord)
    (h : ∀ c ∈ l, ¬ descOf c p) : innerDelta p l = 0 := by
  unfold innerDelta
  apply List.sum_eq_zero
  intro x hx
  obtain ⟨c, hc, rfl⟩ := List.mem_map.mp hx
  rw [if_neg (h c hc)]

theorem descOf_size_update (c p : MatchRecord) (n : Int) :
    descOf { c with sizeBytes := n } p ↔ descOf c p := Iff.rfl

theorem adjustGo_eq_spec (rs : List MatchRecord) :
    ∀ (suf pre : List MatchRecord), rs = pre ++ suf →
    (∀ p ∈ suf, ∀ c ∈ pre, ¬ descOf c p) →
    (suf.Pairwise fun a b => ¬ descOf a b) →
    adjustGo (pre.map fun q => { q with sizeBytes := q.sizeBytes - innerDelta q rs }) suf
      = rs.map fun q => { q with sizeBytes := q.sizeBytes - innerDelta q rs }
  | [], pre, hrs, _, _ => by
    subst hrs
    simp [adjustGo]
  | p :: rest, pre, hrs, hpre, hsuf => by
    have hzero_pre : innerDelta p pre = 0 :=
      innerDelta_eq_zero p pre (hpre p (List.mem_cons_self p rest))
    have hzero_mapped :
        innerDelta p (pre.map fun q => { q with sizeBytes := q.sizeBytes - innerDelta q rs })
          = 0 := by
      apply innerDelta_eq_zero
      intro c hc
      obtain ⟨c₀, hc₀, rfl⟩ := List.mem_map.mp hc
      exact hpre p (List.mem_cons_self p rest) c₀ hc₀
    have hdelta :
        innerDelta p
            ((pre.map fun q => { q with sizeBytes := q.sizeBytes - innerDelta q rs })
              ++ p :: rest)
          = innerDelta p rs := by
      rw [innerDelta_append, hzero_mapped, hrs, innerDelta_append, hzero_pre]
    rw [adjustGo, hdelta]
    have hstep :
        (pre.map fun q => { q with sizeBytes := q.sizeBytes - innerDelta q rs })
            ++ [{ p with sizeBytes := p.sizeBytes - innerDelta p rs }]
          = (pre ++ [p]).map fun q => { q with sizeBytes := q.sizeBytes - innerDelta q rs } := by
      simp
    rw [hstep]
    apply adjustGo_eq_spec rs rest (pre ++ [p])
    · rw [hrs, List.append_assoc]
      rfl
    · intro q hq c hc
      rcases List.mem_append.mp hc with hcpre | hcp
      · exact hpre q (List.mem_cons_of_mem p hq) c hcpre
      · have : c = p := by simpa using hcp
        subst this
        exact (List.pairwise_cons.mp hsuf).1 q hq
    · exact (List.pairwise_cons.mp hsuf).2

/-- On any record list where ancestors precede their descendants (as a scan
produces), the running-value double loop of main.py:232-239 computes exactly
the raw-snapshot adjustment of the spec. -/
theorem adjust_eq_adjustSpec (rs : List MatchRecord) (h : AncestorsFirst rs) :
    adjust rs = adjustSpec rs := by
  have := adjustGo_eq_spec rs rs [] rfl (by simp) h
  simpa [adjust, adjustSpec] using this

theorem filter_orderedInsert (v : Int) (a : MatchRecord) :
    ∀ l : List MatchRecord,
    (List.orderedInsert sizeGe a l).filter (fun r => r.sizeBytes = v)
      = if a.sizeBytes = v then a :: l.filter fun r => r.sizeBytes = v
        else l.filter fun r => r.sizeBytes = v
  | [] => by
    by_cases h : a.sizeBytes = v <;> simp [List.orderedInsert, h]
  | b :: l => by
    rw [List.orderedInsert]
    by_cases hab : sizeGe a b
    · rw [if_pos hab]
      by_cases h : a.sizeBytes = v <;> simp [List.filter_cons, h]
    · rw [if_neg hab]
      have hlt : a.sizeBytes < b.sizeBytes := not_le.mp fun hle => hab hle
      by_cases ha : a.sizeBytes = v <;> by_cases hb : b.sizeBytes = v
      · exact absurd (ha.trans hb.symm) (ne_of_lt hlt)
      · simp [List.filter_cons, ha, hb, filter_orderedInsert v a l]
      · simp [List.filter_cons, ha, hb, filter_orderedInsert v a l]
      · simp [List.filter_cons, ha, hb, filter_orderedInsert v a l]

theorem filter_sortRecords (v : Int) :
    ∀ l : List MatchRecord,
    (sortRecords l).filter (fun r => r.sizeBytes = v) = l.filter fun r => r.sizeBytes = v
  | [] => rfl
  | a :: l => by
    have ih := filter_sortRecords v l
    by_cases h : a.sizeBytes = v <;>
      simp [sortRecords, List.insertionSort, filter_orderedInsert,
        List.filter_cons, h, ih.symm]

theorem lookup_none_modify : ∀ (es : FSEntries) (s : String) (f : FSNode → FSNode),
    lookupEntry es s = none → modifyEntry es s f = es
  | .nil, _, _, _ => rfl
  | .cons n _ rest, s, f, h => by
    by_cases hn : n = s
    · rw [lookupEntry, if_pos hn] at h
      exact absurd h (by simp)
    · rw [lookupEntry, if_neg hn] at h
      rw [modifyEntry, if_neg hn, lookup_none_modify rest s f h]

theorem lookup_modify_ne : ∀ (es : FSEntries) (s t : String) (f : FSNode → FSNode),
    s ≠ t → lookupEntry (modifyEntry es s f) t = lookupEntry es t
  | .nil, _, _, _, _ => rfl
  | .cons n _ rest, s, t, f, hst => by
    by_cases hn : n = s
    · rw [modifyEntry, if_pos hn, lookupEntry, lookupEntry,
        if_neg (show n ≠ t by rw [hn]; exact hst), if_neg (show n ≠ t by rw [hn]; exact hst)]
    · rw [modifyEntry, if_neg hn, lookupEntry, lookupEntry]
      by_cases hnt : n = t
      · rw [if_pos hnt, if_pos hnt]
      · rw [if_neg hnt, if_neg hnt, lookup_modify_ne rest s t f hst]

theorem lookup_modify_eq : ∀ (es : FSEntries) (s : String) (f : FSNode → FSNode),
    lookupEntry (modifyEntry es s f) s = (lookupEntry es s).map f
  | .nil, _, _ => rfl
  | .cons n _ rest, s, f => by
    by_cases hn : n = s
    · rw [modifyEntry, if_pos hn, lookupEntry, if_pos hn, lookupEntry, if_pos hn]
      rfl
    · rw [modifyEntry, if_neg hn, lookupEntry, if_neg hn, lookupEntry, if_neg hn,
        lookup_modify_eq rest s f]

theorem trueBytes_modify : ∀ (es : FSEntries) (s : String) (f : FSNode → FSNode) (c : FSNode),
    lookupEntry es s = some c →
    trueBytesEntries (modifyEntry es s f) + trueBytes c
      = trueBytesEntries es + trueBytes (f c)
  | .nil, _, _, _, h => by simp [lookupEntry] at h
  | .cons n c₀ rest, s, f, c, h => by
    by_cases hn : n = s
    · rw [lookupEntry, if_pos hn] at h
      have hc : c₀ = c := by simpa using h
      subst hc
      rw [modifyEntry, if_pos hn, trueBytesEntries, trueBytesEntries]
      omega
    · rw [lookupEntry, if_neg hn] at h
      rw [modifyEntry, if_neg hn, trueBytesEntries, trueBytesEntries]
      have := trueBytes_modify rest s f c h
      omega

theorem trueBytes_split : ∀ (p : List String) (M : FSNode),
    trueBytes M = sizeAt M p + trueBytes (pruneAt M p)
  | [], M => by simp [sizeAt, nodeAt, pruneAt, trueBytes, trueBytesEntries, Option.elim]
  | s :: rest, .file sz ok => by
    simp [sizeAt, nodeAt, pruneAt, Option.elim]
  | s :: rest, .symlink => by
    simp [sizeAt, nodeAt, pruneAt, Option.elim]
  | s :: rest, .dir b es => by
    rw [pruneAt, trueBytes, trueBytes]
    cases hlk : lookupEntry es s with
    | none =>
      rw [lookup_none_modify es s _ hlk]
      simp [sizeAt, nodeAt, hlk, Option.elim]
    | some c =>
      have hmod : trueBytesEntries (modifyEntry es s fun c => pruneAt c rest) + trueBytes c
          = trueBytesEntries es + trueBytes (pruneAt c rest) :=
        trueBytes_modify es s (fun c => pruneAt c rest) c hlk
      have hsub := trueBytes_split rest c
      have hsz : sizeAt (FSNode.dir b es) (s :: rest) = sizeAt c rest := by
        simp [sizeAt, nodeAt, hlk]
      rw [hsz]
      omega

theorem nodeAt_prune_of_incomp : ∀ (p q : List String) (M : FSNode),
    PathIncomp p q → nodeAt (pruneAt M p) q = nodeAt M q
  | [], q, _, h => absurd (List.nil_prefix) h.1
  | _ :: _, [], _, h => absurd (List.nil_prefix) h.2
  | s :: p', t :: q', .file sz ok, _ => rfl
  | s :: p', t :: q', .symlink, _ => rfl
  | s :: p', t :: q', .dir b es, h => by
    rw [pruneAt]
    by_cases hst : s = t
    · subst hst
      have h' : PathIncomp p' q' := by
        constructor
        · intro hp
          exact h.1 (List.cons_prefix_cons.mpr ⟨rfl, hp⟩)
        · intro hp
          exact h.2 (List.cons_prefix_cons.mpr ⟨rfl, hp⟩)
      rw [nodeAt, nodeAt, lookup_modify_eq]
      cases hlk : lookupEntry es s with
      | none => rfl
      | some c =>
        simp only [Option.map_some]
        exact nodeAt_prune_of_incomp p' q' c h'
    · rw [nodeAt, nodeAt, lookup_modify_ne es s t _ hst]

theorem sum_sizeAt_le : ∀ (qs : List (List String)) (M : FSNode),
    qs.Pairwise PathIncomp → (qs.map fun q => sizeAt M q).sum ≤ trueBytes M
  | [], M, _ => by simp
  | q :: qs', M, h => by
    have hhead := (List.pairwise_cons.mp h).1
    have htail := (List.pairwise_cons.mp h).2
    have hsplit := trueBytes_split q M
    have hcongr : (qs'.map fun r => sizeAt M r) = qs'.map fun r => sizeAt (pruneAt M q) r := by
      apply List.map_congr_left
      intro r hr
      rw [sizeAt, sizeAt, nodeAt_prune_of_incomp q r M (hhead r hr)]
    have htl := sum_sizeAt_le qs' (pruneAt M q) htail
    rw [List.map_cons, List.sum_cons, hcongr]
    omega

theorem nodeAt_append : ∀ (a b : List String) (M : FSNode),
    nodeAt M (a ++ b) = (nodeAt M a).bind fun n => nodeAt n b
  | [], _, _ => by simp [nodeAt]
  | _ :: _, _, .file _ _ => rfl
  | _ :: _, _, .symlink => rfl
  | s :: a', b, .dir bb es => by
    cases hlk : lookupEntry es s with
    | none => simp [nodeAt, hlk]
    | some c => simp [nodeAt, hlk, nodeAt_append a' b c]

theorem innerDelta_eq_filter (p : MatchRecord) :
    ∀ l : List MatchRecord,
    innerDelta p l = ((l.filter fun c => decide (descOf c p)).map (fun c => c.sizeBytes)).sum
  | [] => rfl
  | c :: l => by
    have ih := innerDelta_eq_filter p l
    rw [innerDelta] at ih ⊢
    by_cases h : descOf c p <;> simp [List.filter_cons, h, ih]

theorem sum_map_natCast (g : MatchRecord → Nat) :
    ∀ l : List MatchRecord, (l.map fun c => ((g c : Nat) : Int)).sum = ((l.map g).sum : Int)
  | [] => rfl
  | c :: l => by
    rw [List.map_cons, List.sum_cons, List.map_cons, List.sum_cons,
      sum_map_natCast g l]
    push_cast
    ring

theorem prefix_append_left (l : List String) {a b : List String} (h : a <+: b) :
    l ++ a <+: l ++ b := by
  obtain ⟨t, rfl⟩ := h
  exact ⟨t, List.append_assoc l a t⟩

theorem eq_append_drop_of_prefix {a b : List String} (h : a <+: b) :
    b = a ++ b.drop a.length := by
  obtain ⟨t, rfl⟩ := h
  rw [List.drop_left]

theorem innerDelta_le (fs : FSNode) (r : MatchRecord) (rs : List MatchRecord)
    (hn : (rs.map fun c => c.fullPath).Nodup)
    (h3 : ∀ a ∈ rs, ∀ b ∈ rs, ∀ c ∈ rs, descOf b a → descOf c b → False)
    (hr : ∀ c ∈ rs, c.sizeBytes = (sizeAt fs c.fullPath : Int))
    (hmem : r ∈ rs) :
    innerDelta r rs ≤ (sizeAt fs r.fullPath : Int) := by
  classical
  set ds := rs.filter fun c => decide (descOf c r) with hds
  have hsub : ds.Sublist rs := List.filter_sublist rs
  have hmemds : ∀ c ∈ ds, c ∈ rs := fun c hc => hsub.mem hc
  have hdesc : ∀ c ∈ ds, descOf c r := by
    intro c hc
    have := (List.mem_filter.mp hc).2
    simpa using this
  have h1 : innerDelta r rs = (ds.map fun c => c.sizeBytes).sum :=
    innerDelta_eq_filter r rs
  have h2 : (ds.map fun c => c.sizeBytes).sum
      = (ds.map fun c => ((sizeAt fs c.fullPath : Nat) : Int)).sum := by
    apply congrArg
    apply List.map_congr_left
    intro c hc
    exact hr c (hmemds c hc)
  have h4 : (ds.map fun c => ((sizeAt fs c.fullPath : Nat) : Int)).sum
      = (((ds.map fun c => sizeAt fs c.fullPath).sum : Nat) : Int) :=
    sum_map_natCast (fun c => sizeAt fs c.fullPath) ds
  rw [h1, h2, h4, Nat.cast_le]
  have hpairwise_ne : rs.Pairwise fun a b => a.fullPath ≠ b.fullPath := by
    have h' : (rs.map fun c => c.fullPath).Pairwise (fun a b => a ≠ b) := hn
    exact List.pairwise_map.mp h' 
  have hpw : ds.Pairwise fun a b => PathIncomp
      (a.fullPath.drop r.fullPath.length) (b.fullPath.drop r.fullPath.length) := by
    have hpw0 : ds.Pairwise fun a b => a.fullPath ≠ b.fullPath :=
      hpairwise_ne.sublist hsub
    apply hpw0.imp_of_mem
    intro a b ha hb hne
    have hda := hdesc a ha
    have hdb := hdesc b hb
    have hea : a.fullPath = r.fullPath ++ a.fullPath.drop r.fullPath.length :=
      eq_append_drop_of_prefix hda.2
    have heb : b.fullPath = r.fullPath ++ b.fullPath.drop r.fullPath.length :=
      eq_append_drop_of_prefix hdb.2
    constructor
    · intro hpre
      have hab : a.fullPath <+: b.fullPath := by
        rw [hea, heb]
        exact prefix_append_left _ hpre
      exact h3 r hmem a (hmemds a ha) b (hmemds b hb) hda ⟨fun he => hne he, hab⟩
    · intro hpre
      have hba : b.fullPath <+: a.fullPath := by
        rw [hea, heb]
        exact prefix_append_left _ hpre
      exact h3 r hmem b (hmemds b hb) a (hmemds a ha) hdb ⟨fun he => hne he.symm, hba⟩
  cases hnode : nodeAt fs r.fullPath with
  | none =>
    have hz : ∀ c ∈ ds, sizeAt fs c.fullPath = 0 := by
      intro c hc
      have hdc := hdesc c hc
      obtain ⟨t, ht⟩ := hdc.2
      rw [sizeAt, ← ht, nodeAt_append, hnode]
      rfl
    have : (ds.map fun c => sizeAt fs c.fullPath).sum = 0 := by
      apply List.sum_eq_zero
      intro x hx
      obtain ⟨c, hc, rfl⟩ := List.mem_map.mp hx
      exact hz c hc
    omega
  | some M =>
    have hMsize : sizeAt fs r.fullPath = trueBytes M := by
      rw [sizeAt, hnode]
      rfl
    have hterm : ∀ c ∈ ds, sizeAt fs c.fullPath
        = sizeAt M (c.fullPath.drop r.fullPath.length) := by
      intro c hc
      have hdc := hdesc c hc
      obtain ⟨t, ht⟩ := hdc.2
      have hdrop : c.fullPath.drop r.fullPath.length = t := by
        rw [← ht, List.drop_left]
      rw [hdrop, sizeAt, ← ht, nodeAt_append, hnode, sizeAt]
      rfl
    have hrw : (ds.map fun c => sizeAt fs c.fullPath)
        = (ds.map fun c => c.fullPath.drop r.fullPath.length).map fun q => sizeAt M q := by
      rw [List.map_map]
      exact List.map_congr_left hterm
    rw [hrw, hMsize]
    apply sum_sizeAt_le
    exact List.pairwise_map.mpr hpw

/-- C2: on a scan's record list (raw sizes, ancestors before descendants) the
adjustment gives every record its raw size minus the sum of the raw sizes of
all records strictly below its path, and a record with no strict descendant in
the list is left unchanged. -/
theorem C2_adjust_subtracts_raw_descendants (rs : List MatchRecord)
    (h : AncestorsFirst rs) :
    adjust rs = adjustSpec rs ∧
    ∀ r ∈ rs, (∀ c ∈ rs, ¬ descOf c r) →
      { r with sizeBytes := r.sizeBytes - innerDelta r rs } = r := by
  refine ⟨adjust_eq_adjustSpec rs h, fun r _ hno => ?_⟩
  rw [innerDelta_eq_zero r rs hno]
  simp

/-- Witness for C2: the parent-1536 / child-512 instance of the claim: final
sizes are 1024 and 512, with grand total 1536. -/
theorem C2_adjust_subtracts_raw_descendants_witness :
    AncestorsFirst exRecs2 ∧
    adjust exRecs2
      = [⟨["proj", "Data in"], 1024⟩, ⟨["proj", "Data in", "Email"], 512⟩] ∧
    ((adjust exRecs2).map fun r => r.sizeBytes).sum = 1536 := by
  refine ⟨by decide, ?_, by decide⟩
  rw [(C2_adjust_subtracts_raw_descendants exRecs2 (by decide)).1]
  decide

/-- Counterexample to C1 as stated: in `exFS3` three matched folders nest
inside one another and every raw size is the true subtree byte total (100),
yet the adjustment (run on the discovery-ordered records) drives the
outermost record to -100. -/
theorem C1_counterexample :
    (∀ r ∈ exRecs3, r.sizeBytes = (sizeAt exFS3 r.fullPath : Int)) ∧
    AncestorsFirst exRecs3 ∧
    ((adjust exRecs3).map fun r => r.sizeBytes) = [-100, 0, 100] ∧
    ¬ ∀ r ∈ adjust exRecs3, 0 ≤ r.sizeBytes := by
  refine ⟨by decide, by decide, by decide, by decide⟩

/-- C1 (amended): final sizes are all nonnegative provided additionally that
record paths are distinct and no matched record strictly contains a matched
record that itself strictly contains a third (matched nesting at most two
deep); `C1_counterexample` shows a three-deep nesting violates the original
claim. -/
theorem C1_adjusted_sizes_nonneg (fs : FSNode) (rs : List MatchRecord)
    (ho : AncestorsFirst rs)
    (hn : (rs.map fun c => c.fullPath).Nodup)
    (h3 : ∀ a ∈ rs, ∀ b ∈ rs, ∀ c ∈ rs, descOf b a → descOf c b → False)
    (hr : ∀ c ∈ rs, c.sizeBytes = (sizeAt fs c.fullPath : Int)) :
    ∀ r ∈ adjust rs, 0 ≤ r.sizeBytes := by
  rw [adjust_eq_adjustSpec rs ho]
  intro r' hr'
  obtain ⟨r, hmem, rfl⟩ := List.mem_map.mp hr'
  have h1 := hr r hmem
  have h2 := innerDelta_le fs r rs hn h3 hr hmem
  show 0 ≤ r.sizeBytes - innerDelta r rs
  omega

/-- Witness for the amended C1 on the two-deep `exFS2` scan: all hypotheses
hold and every adjusted size is nonnegative. -/
theorem C1_adjusted_sizes_nonneg_witness :
    AncestorsFirst exRecs2 ∧ ((exRecs2.map fun c => c.fullPath).Nodup) ∧
    (∀ a ∈ exRecs2, ∀ b ∈ exRecs2, ∀ c ∈ exRecs2, descOf b a → descOf c b → False) ∧
    (∀ c ∈ exRecs2, c.sizeBytes = (sizeAt exFS2 c.fullPath : Int)) ∧
    ∀ r ∈ adjust exRecs2, 0 ≤ r.sizeBytes := by
  refine ⟨by decide, by decide, by decide, by decide,
    C1_adjusted_sizes_nonneg exFS2 exRecs2 (by decide) (by decide) (by decide) (by decide)⟩

/-- Counterexample to C3 as stated: the lists `exRecs3` and `exRecs3Swap` are
permutations of each other, but adjusting them gives the record with path
`proj/a` final size -100 in one order and 0 in the other — the inner loop
subtracts running (already-adjusted) values, not an immutable raw snapshot. -/
theorem C3_counterexample :
    exRecs3.Perm exRecs3Swap ∧
    ((adjust exRecs3).map fun r => r.sizeBytes) = [-100, 0, 100] ∧
    ((adjust exRecs3Swap).map fun r => r.sizeBytes) = [0, 0, 100] ∧
    (adjust exRecs3)[0]? = some ⟨["proj", "a"], -100⟩ ∧
    (adjust exRecs3Swap)[1]? = some ⟨["proj", "a"], 0⟩ := by
  refine ⟨by decide, by decide, by decide, by decide, by decide⟩

/-- C3 (amended): reordering does not change the adjusted results as long as
both orders list ancestors before descendants, which is the only order the
scan produces; the outcome is then the raw-snapshot formula, and the adjusted
record multisets coincide.  For arbitrary permutations the original claim is
false (`C3_counterexample`). -/
theorem C3_order_irrelevant_for_scan_orders (l₁ l₂ : List MatchRecord)
    (hp : l₁.Perm l₂) (h₁ : AncestorsFirst l₁) (h₂ : AncestorsFirst l₂) :
    (adjust l₁).Perm (adjust l₂) := by
  rw [adjust_eq_adjustSpec l₁ h₁, adjust_eq_adjustSpec l₂ h₂]
  unfold adjustSpec
  have hfun : (fun q : MatchRecord => { q with sizeBytes := q.sizeBytes - innerDelta q l₂ })
      = fun q : MatchRecord => { q with sizeBytes := q.sizeBytes - innerDelta q l₁ } := by
    funext q
    have hdelta : innerDelta q l₁ = innerDelta q l₂ := (hp.map _).sum_eq
    rw [hdelta]
  rw [hfun]
  exact hp.map _

/-- Witness for the amended C3: two records in unrelated paths, in either
order, adjust to the same multiset. -/
theorem C3_order_irrelevant_for_scan_orders_witness :
    ([⟨["a"], (3 : Int)⟩, ⟨["b"], 5⟩] : List MatchRecord).Perm [⟨["b"], 5⟩, ⟨["a"], 3⟩] ∧
    AncestorsFirst [⟨["a"], (3 : Int)⟩, ⟨["b"], 5⟩] ∧
    AncestorsFirst [⟨["b"], (5 : Int)⟩, ⟨["a"], 3⟩] ∧
    (adjust [⟨["a"], (3 : Int)⟩, ⟨["b"], 5⟩]).Perm (adjust [⟨["b"], 5⟩, ⟨["a"], 3⟩]) := by
  refine ⟨by decide, by decide, by decide,
    C3_order_irrelevant_for_scan_orders _ _ (by decide) (by decide) (by decide)⟩

/-- C7: in the adjustment of a two-record list the subtraction happens exactly
when one path is a strict descendant of the other under path-segment
containment; the string paths "/a/foo" and "/a/foobar" are a string prefix
pair but not a segment prefix pair on their `parts`, so no subtraction
occurs. -/
theorem C7_subtract_iff_segment_descendant :
    (∀ (pp cp : List String) (a b : Int),
      adjust [⟨pp, a⟩, ⟨cp, b⟩]
        = if pp ≠ cp ∧ pp <+: cp then [⟨pp, a - b⟩, ⟨cp, b⟩]
          else if cp ≠ pp ∧ cp <+: pp then [⟨pp, a⟩, ⟨cp, b - a⟩]
          else [⟨pp, a⟩, ⟨cp, b⟩]) ∧
    "/a/foo".data <+: "/a/foobar".data ∧
    ¬ pathParts "/a/foo" <+: pathParts "/a/foobar" ∧
    adjust [⟨pathParts "/a/foo", 7⟩, ⟨pathParts "/a/foobar", 3⟩]
      = [⟨pathParts "/a/foo", 7⟩, ⟨pathParts "/a/foobar", 3⟩] := by
  refine ⟨?_, by decide, by decide, by decide⟩
  intro pp cp a b
  by_cases h1 : pp ≠ cp ∧ pp <+: cp
  · have h2 : ¬ (cp ≠ pp ∧ cp <+: pp) := by
      rintro ⟨hne, hpre⟩
      exact h1.1 (h1.2.eq_of_length_le hpre.length_le)
    simp [adjust, adjustGo, innerDelta, descOf, h1, h2]
  · by_cases h2 : cp ≠ pp ∧ cp <+: pp
    · simp [adjust, adjustGo, innerDelta, descOf, h1, h2]
    · simp [adjust, adjustGo, innerDelta, descOf, h1, h2]

theorem lowerKeepAlnum_eq : ∀ l : List Char,
    (l.map Char.toLower).filter isLowerAlnum = lowerKeepAlnum l
  | [] => rfl
  | c :: l => by
    rw [List.map_cons, List.filter_cons, lowerKeepAlnum]
    by_cases h : isLowerAlnum c.toLower = true <;> simp [h, lowerKeepAlnum_eq l]

/-- C8: `normalize_name` is the pure total function "lowercase, then delete
every character that is not an ASCII lowercase letter or digit" (stated
against the independent single-pass recursion `lowerKeepAlnum`), it maps a
pure-punctuation name to the empty string, and membership of a name in a
normalized target set is exactly equality of normalized forms with some
target. -/
theorem C8_normalize_is_lower_filter :
    (∀ s : String, normalize_name s = ⟨lowerKeepAlnum s.data⟩) ∧
    normalize_name "!@#$%^&*()" = "" ∧
    (∀ (d : String) (ts : List String),
      normalize_name d ∈ ts.map normalize_name ↔
        ∃ t ∈ ts, normalize_name d = normalize_name t) := by
  refine ⟨fun s => ?_, by decide, fun d ts => ?_⟩
  · rw [normalize_name, lowerKeepAlnum_eq]
  · rw [List.mem_map]
    constructor
    · rintro ⟨t, ht, he⟩
      exact ⟨t, ht, he.symm⟩
    · rintro ⟨t, ht, he⟩
      exact ⟨t, ht, he.symm⟩

/-- C9: the final result sequence is the adjusted record list sorted by final
size descending, it is a permutation of the adjusted records, and the sort is
stable: for every size value, the records of that size appear in the same
relative (discovery) order as in the adjusted list. -/
theorem C9_final_results_sorted_stable (rs : List MatchRecord) :
    (finalResults rs).Sorted sizeGe ∧
    (finalResults rs).Perm (adjust rs) ∧
    ∀ v : Int, (finalResults rs).filter (fun r => r.sizeBytes = v)
      = (adjust rs).filter fun r => r.sizeBytes = v :=
  ⟨List.sorted_insertionSort sizeGe (adjust rs),
   List.perm_insertionSort sizeGe (adjust rs),
   fun v => filter_sortRecords v (adjust rs)⟩

/-- C10: the scan aborts with exit status 1 exactly when the root is missing,
not a directory, or its listing is denied — and then no record list is
produced; when the root's listing succeeds the run takes the non-fatal path
and yields a result list. -/
theorem C10_fatal_root_validation (root : Option FSNode) (targets : List String) :
    (rootOk root = false → runScan root targets = .error 1) ∧
    (rootOk root = true → ∃ recs, runScan root targets = .ok recs) := by
  constructor <;> intro h
  · cases root with
    | none => rfl
    | some n =>
      cases n with
      | file sz ok => rfl
      | symlink => rfl
      | dir b es =>
        cases b with
        | false => rfl
        | true => simp [rootOk] at h
  · cases root with
    | none => simp [rootOk] at h
    | some n =>
      cases n with
      | file sz ok => simp [rootOk] at h
      | symlink => simp [rootOk] at h
      | dir b es =>
        cases b with
        | false => simp [rootOk] at h
        | true => exact ⟨_, rfl⟩

/-- Witness for C10 at concrete roots: a missing root aborts with exit code 1;
an existing listable directory root scans successfully. -/
theorem C10_fatal_root_validation_witness :
    rootOk none = false ∧ runScan none ["build"] = .error 1 ∧
    rootOk (some (.dir true .nil)) = true ∧
    ∃ recs, runScan (some (.dir true .nil)) ["build"] = .ok recs :=
  ⟨rfl, (C10_fatal_root_validation none ["build"]).1 rfl, rfl,
   (C10_fatal_root_validation (some (.dir true .nil)) ["build"]).2 rfl⟩

mutual
theorem clean_node_bytes : ∀ n : FSNode, cleanFS n = true →
    fileC n + get_folder_size n = trueBytes n
  | .file sz ok, h => by
    have hok : ok = true := by simpa [cleanFS] using h
    subst hok
    simp [fileC, get_folder_size, trueBytes]
  | .symlink, _ => by simp [fileC, get_folder_size, trueBytes]
  | .dir b es, h => by
    have hb : b = true ∧ cleanEntries es = true := by simpa [cleanFS] using h
    obtain ⟨hb1, hb2⟩ := hb
    subst hb1
    simp [fileC, get_folder_size, trueBytes, clean_entries_bytes es hb2]
theorem clean_entries_bytes : ∀ es : FSEntries, cleanEntries es = true →
    walkFiles es = trueBytesEntries es
  | .nil, _ => rfl
  | .cons _ c rest, h => by
    have hc : cleanFS c = true ∧ cleanEntries rest = true := by simpa [cleanEntries] using h
    rw [walkFiles, trueBytesEntries, ← clean_node_bytes c hc.1, clean_entries_bytes rest hc.2]
end

theorem walkFiles_append : ∀ es1 es2 : FSEntries,
    walkFiles (appendE es1 es2) = walkFiles es1 + walkFiles es2
  | .nil, es2 => by simp [appendE, walkFiles]
  | .cons n c rest, es2 => by
    rw [appendE, walkFiles, walkFiles, walkFiles_append rest es2]
    omega

/-- C5: on a fully accessible snapshot, `get_folder_size` of a directory is
exactly the byte total of the regular non-symlink files in its whole subtree
(`trueBytes`); moreover inserting a symbolic link anywhere in a directory's
listing never changes the computed size (symlinks contribute 0 regardless of
target, and directories themselves contribute no bytes). -/
theorem C5_folder_size_sums_regular_files :
    (∀ (b : Bool) (es : FSEntries), cleanFS (.dir b es) = true →
      get_folder_size (.dir b es) = trueBytes (.dir b es)) ∧
    (∀ (es1 es2 : FSEntries) (nm : String) (b : Bool),
      get_folder_size (.dir b (appendE es1 (.cons nm .symlink es2)))
        = get_folder_size (.dir b (appendE es1 es2))) := by
  constructor
  · intro b es h
    have := clean_node_bytes (.dir b es) h
    simpa [fileC] using this
  · intro es1 es2 nm b
    cases b with
    | false => rfl
    | true =>
      show walkFiles (appendE es1 (.cons nm .symlink es2)) = walkFiles (appendE es1 es2)
      rw [walkFiles_append, walkFiles_append, walkFiles]
      simp [fileC, get_folder_size]

/-- Witness for C5: the 5-byte and 10-byte top-level files plus the 5-byte
nested file of `exSize` total 20 bytes. -/
theorem C5_folder_size_sums_regular_files_witness :
    cleanFS exSize = true ∧ get_folder_size exSize = 20 := by
  refine ⟨by decide, ?_⟩
  have h := C5_folder_size_sums_regular_files.1 true
      (.cons "a.txt" (.file 5 true)
        (.cons "b.txt" (.file 10 true)
          (.cons "sub" (.dir true (.cons "c.txt" (.file 5 true) .nil)) .nil)))
      (by decide)
  exact h.trans (by decide)

/-- C6: `get_folder_size` never fails: an unlistable top-level directory
yields the 0 bytes accumulated so far, a file whose stat fails is skipped
while every other file in the listing is still counted, and the result is
always nonnegative. -/
theorem C6_folder_size_degrades_gracefully :
    (∀ es : FSEntries, get_folder_size (.dir false es) = 0) ∧
    (∀ (es1 es2 : FSEntries) (nm : String) (sz : Nat),
      get_folder_size (.dir true (appendE es1 (.cons nm (.file sz false) es2)))
        = get_folder_size (.dir true (appendE es1 es2))) ∧
    (∀ n : FSNode, 0 ≤ (get_folder_size n : Int)) := by
  refine ⟨fun es => rfl, ?_, fun n => Int.natCast_nonneg _⟩
  intro es1 es2 nm sz
  show walkFiles (appendE es1 (.cons nm (.file sz false) es2)) = walkFiles (appendE es1 es2)
  rw [walkFiles_append, walkFiles_append, walkFiles]
  simp [fileC, get_folder_size]

theorem hasEntry_of_lookup : ∀ (es : FSEntries) (sn : String) (c : FSNode),
    lookupEntry es sn = some c → hasEntry es sn c
  | .nil, _, _, h => by simp [lookupEntry] at h
  | .cons n c₀ rest, sn, c, h => by
    rw [lookupEntry] at h
    by_cases hn : n = sn
    · rw [if_pos hn] at h
      exact Or.inl ⟨hn, by simpa using h⟩
    · rw [if_neg hn] at h
      exact Or.inr (hasEntry_of_lookup rest sn c h)

theorem hasEntry_name_mem : ∀ (es : FSEntries) (sn : String) (c : FSNode),
    hasEntry es sn c → sn ∈ namesOf es
  | .cons n c₀ rest, sn, c, h => by
    rcases h with ⟨rfl, _⟩ | h
    · simp [namesOf]
    · simp [namesOf, hasEntry_name_mem rest sn c h]

theorem lookup_of_hasEntry : ∀ (es : FSEntries) (sn : String) (c : FSNode),
    (namesOf es).Nodup → hasEntry es sn c → lookupEntry es sn = some c
  | .cons n c₀ rest, sn, c, hnd, h => by
    have hnd' := List.nodup_cons.mp (by simpa [namesOf] using hnd)
    rcases h with ⟨rfl, rfl⟩ | h
    · rw [lookupEntry, if_pos rfl]
    · have hmem := hasEntry_name_mem rest sn c h
      have hne : n ≠ sn := fun he => hnd'.1 (he ▸ hmem)
      rw [lookupEntry, if_neg hne]
      exact lookup_of_hasEntry rest sn c hnd'.2 h

theorem WFEntries_child : ∀ (es : FSEntries) (sn : String) (c : FSNode),
    WFEntries es = true → hasEntry es sn c → WFNode c = true
  | .cons n c₀ rest, sn, c, hwf, h => by
    have hw : WFNode c₀ = true ∧ WFEntries rest = true := by
      simpa [WFEntries] using hwf
    rcases h with ⟨_, rfl⟩ | h
    · exact hw.1
    · exact WFEntries_child rest sn c hw.2 h

theorem WFNode_dir : ∀ (b : Bool) (es : FSEntries), WFNode (.dir b es) = true →
    (namesOf es).Nodup ∧ WFEntries es = true := by
  intro b es h
  simpa [WFNode] using h

theorem matchEntries_mem : ∀ (t : List String) (es : FSEntries) (p : List String),
    p ∈ matchEntries t es ↔
      ∃ n c, hasEntry es n c ∧ p = [n] ∧ isDirNode c = true ∧ normalize_name n ∈ t
  | t, .nil, p => by simp [matchEntries, hasEntry]
  | t, .cons n₀ c₀ rest, p => by
    rw [matchEntries, List.mem_append, matchEntries_mem t rest p]
    constructor
    · rintro (h | ⟨n, c, he, rfl, hd, hn⟩)
      · by_cases hc : isDirNode c₀ = true ∧ normalize_name n₀ ∈ t
        · rw [if_pos hc] at h
          have hp : p = [n₀] := by simpa using h
          exact ⟨n₀, c₀, Or.inl ⟨rfl, rfl⟩, hp, hc.1, hc.2⟩
        · rw [if_neg hc] at h
          simp at h
      · exact ⟨n, c, Or.inr he, rfl, hd, hn⟩
    · rintro ⟨n, c, he, rfl, hd, hn⟩
      rcases he with ⟨rfl, rfl⟩ | he
      · left
        rw [if_pos ⟨hd, hn⟩]
        simp
      · right
        exact ⟨n, c, he, rfl, hd, hn⟩

theorem walkSubdirs_mem : ∀ (t : List String) (es : FSEntries) (p : List String),
    p ∈ walkSubdirs t es ↔
      ∃ n c q, hasEntry es n c ∧ p = n :: q ∧ q ∈ findIn t c
  | t, .nil, p => by simp [walkSubdirs, hasEntry]
  | t, .cons n₀ c₀ rest, p => by
    rw [walkSubdirs, List.mem_append, walkSubdirs_mem t rest p]
    constructor
    · rintro (h | ⟨n, c, q, he, rfl, hq⟩)
      · obtain ⟨q, hq, rfl⟩ := List.mem_map.mp h
        exact ⟨n₀, c₀, q, Or.inl ⟨rfl, rfl⟩, rfl, hq⟩
      · exact ⟨n, c, q, Or.inr he, rfl, hq⟩
    · rintro ⟨n, c, q, he, rfl, hq⟩
      rcases he with ⟨rfl, rfl⟩ | he
      · left
        exact List.mem_map.mpr ⟨q, hq, rfl⟩
      · right
        exact ⟨n, c, q, he, rfl, hq⟩

theorem reach_cons_eq (es : FSEntries) (x : String) (rest : List String) :
    reach (.dir true es) (x :: rest) = (lookupEntry es x).bind fun c => reach c rest := by
  cases hlk : lookupEntry es x <;> simp [reach, hlk]

theorem reach_notdir_cons (N : FSNode) (x : String) (rest : List String)
    (h : ∀ es, N ≠ .dir true es) : reach N (x :: rest) = none := by
  cases N with
  | file sz ok => rfl
  | symlink => rfl
  | dir b es =>
    cases b with
    | false => rfl
    | true => exact absurd rfl (h es)

mutual
theorem findIn_iff : ∀ (t : List String) (N : FSNode), WFNode N = true →
    ∀ p : List String, p ∈ findIn t N ↔ MatchSpec t N p
  | t, .file sz ok, _, p => by
    simp only [findIn, List.not_mem_nil, false_iff]
    rintro ⟨q, s, c, rfl, hr, _, _⟩
    rw [show reach (.file sz ok) (q ++ [s]) = none from by cases q <;> rfl] at hr
    cases hr
  | t, .symlink, _, p => by
    simp only [findIn, List.not_mem_nil, false_iff]
    rintro ⟨q, s, c, rfl, hr, _, _⟩
    rw [show reach .symlink (q ++ [s]) = none from by cases q <;> rfl] at hr
    cases hr
  | t, .dir false es, _, p => by
    simp only [findIn, List.not_mem_nil, false_iff]
    rintro ⟨q, s, c, rfl, hr, _, _⟩
    rw [show reach (.dir false es) (q ++ [s]) = none from by cases q <;> rfl] at hr
    cases hr
  | t, .dir true es, hwf, p => by
    obtain ⟨hnd, hwfe⟩ := WFNode_dir true es hwf
    rw [findIn, List.mem_append, matchEntries_mem, walkSubdirs_iff t es hwfe p]
    constructor
    · rintro (⟨n, c, he, rfl, hd, hn⟩ | ⟨n, c, q, he, rfl, hms⟩)
      · refine ⟨[], n, c, rfl, ?_, hd, hn⟩
        rw [reach_cons_eq, lookup_of_hasEntry es n c hnd he]
        simp [reach]
      · obtain ⟨q₂, s, c₂, rfl, hr, hd₂, hs⟩ := hms
        refine ⟨n :: q₂, s, c₂, rfl, ?_, hd₂, hs⟩
        rw [reach_cons_eq, lookup_of_hasEntry es n c hnd he]
        exact hr
    · rintro ⟨q, s, c, rfl, hr, hd, hs⟩
      cases q with
      | nil =>
        left
        rw [List.nil_append, reach_cons_eq] at hr
        cases hlk : lookupEntry es s with
        | none => rw [hlk] at hr; cases hr
        | some c₀ =>
          rw [hlk] at hr
          have hc : c₀ = c := by simpa [reach] using hr
          subst hc
          exact ⟨s, c₀, hasEntry_of_lookup es s c₀ hlk, rfl, hd, hs⟩
      | cons x q₂ =>
        right
        rw [List.cons_append, reach_cons_eq] at hr
        cases hlk : lookupEntry es x with
        | none => rw [hlk] at hr; cases hr
        | some c₀ =>
          rw [hlk] at hr
          exact ⟨x, c₀, q₂ ++ [s], hasEntry_of_lookup es x c₀ hlk, rfl,
            ⟨q₂, s, c, rfl, hr, hd, hs⟩⟩
theorem walkSubdirs_iff : ∀ (t : List String) (es : FSEntries), WFEntries es = true →
    ∀ p : List String, p ∈ walkSubdirs t es ↔
      ∃ n c q, hasEntry es n c ∧ p = n :: q ∧ MatchSpec t c q
  | t, .nil, _, p => by simp [walkSubdirs, hasEntry]
  | t, .cons n₀ c₀ rest, hwf, p => by
    have hw : WFNode c₀ = true ∧ WFEntries rest = true := by
      simpa [WFEntries] using hwf
    rw [walkSubdirs, List.mem_append, walkSubdirs_iff t rest hw.2 p]
    constructor
    · rintro (h | ⟨n, c, q, he, rfl, hms⟩)
      · obtain ⟨q, hq, rfl⟩ := List.mem_map.mp h
        exact ⟨n₀, c₀, q, Or.inl ⟨rfl, rfl⟩, rfl, (findIn_iff t c₀ hw.1 q).mp hq⟩
      · exact ⟨n, c, q, Or.inr he, rfl, hms⟩
    · rintro ⟨n, c, q, he, rfl, hms⟩
      rcases he with ⟨rfl, rfl⟩ | he
      · left
        exact List.mem_map.mpr ⟨q, (findIn_iff t c₀ hw.1 q).mpr hms, rfl⟩
      · right
        exact ⟨n, c, q, he, rfl, hms⟩
end

theorem matchEntries_shape (t : List String) (es : FSEntries) (p : List String)
    (h : p ∈ matchEntries t es) : ∃ n, p = [n] := by
  obtain ⟨n, _, _, hp, _, _⟩ := (matchEntries_mem t es p).mp h
  exact ⟨n, hp⟩

theorem walkSubdirs_shape (t : List String) (es : FSEntries) (p : List String)
    (h : p ∈ walkSubdirs t es) : ∃ n q, p = n :: q ∧ n ∈ namesOf es := by
  obtain ⟨n, c, q, he, hp, _⟩ := (walkSubdirs_mem t es p).mp h
  exact ⟨n, q, hp, hasEntry_name_mem es n c he⟩

mutual
theorem findIn_pairwise : ∀ (t : List String) (N : FSNode), WFNode N = true →
    (findIn t N).Pairwise fun p q => ¬(q <+: p ∧ q ≠ p)
  | t, .file _ _, _ => by simp [findIn]
  | t, .symlink, _ => by simp [findIn]
  | t, .dir false _, _ => by simp [findIn]
  | t, .dir true es, hwf => by
    obtain ⟨hnd, hwfe⟩ := WFNode_dir true es hwf
    rw [findIn]
    apply List.pairwise_append.mpr
    refine ⟨?_, walkSubdirs_pairwise t es hwfe hnd, ?_⟩
    · apply List.pairwise_of_forall_mem_list
      intro a ha b hb
      obtain ⟨n, rfl⟩ := matchEntries_shape t es a ha
      obtain ⟨m, rfl⟩ := matchEntries_shape t es b hb
      rintro ⟨hpre, hne⟩
      exact hne (by rw [(List.cons_prefix_cons.mp hpre).1])
    · intro a ha b hb
      obtain ⟨n, rfl⟩ := matchEntries_shape t es a ha
      obtain ⟨m, q, rfl, _⟩ := walkSubdirs_shape t es b hb
      rintro ⟨hpre, hne⟩
      have h1 := List.cons_prefix_cons.mp hpre
      have hq : q = [] := List.prefix_nil.mp h1.2
      exact hne (by rw [h1.1, hq])
theorem walkSubdirs_pairwise : ∀ (t : List String) (es : FSEntries),
    WFEntries es = true → (namesOf es).Nodup →
    (walkSubdirs t es).Pairwise fun p q => ¬(q <+: p ∧ q ≠ p)
  | t, .nil, _, _ => by simp [walkSubdirs]
  | t, .cons n₀ c₀ rest, hwf, hnd => by
    have hw : WFNode c₀ = true ∧ WFEntries rest = true := by
      simpa [WFEntries] using hwf
    have hnd' : n₀ ∉ namesOf rest ∧ (namesOf rest).Nodup :=
      List.nodup_cons.mp (by simpa [namesOf] using hnd)
    rw [walkSubdirs]
    apply List.pairwise_append.mpr
    refine ⟨?_, walkSubdirs_pairwise t rest hw.2 hnd'.2, ?_⟩
    · apply List.pairwise_map.mpr
      apply (findIn_pairwise t c₀ hw.1).imp
      intro p q hR
      rintro ⟨hpre, hne⟩
      have h1 := List.cons_prefix_cons.mp hpre
      exact hR ⟨h1.2, fun he => hne (by rw [he])⟩
    · intro a ha b hb
      obtain ⟨p, hp, rfl⟩ := List.mem_map.mp ha
      obtain ⟨m, q, rfl, hm⟩ := walkSubdirs_shape t rest b hb
      rintro ⟨hpre, hne⟩
      have h1 := List.cons_prefix_cons.mp hpre
      exact hnd'.1 (h1.1 ▸ hm)
end

/-- C4: `find_target_folders_in_project` returns exactly the subdirectories
(at any depth reachable through listable directories) whose normalized name is
in the target set — in particular a matched directory's own subtree is still
searched, so nested matches are discovered — and in the returned sequence no
matched path appears after a strict ancestor of it: ancestors come first
(top-down discovery order). -/
theorem C4_find_all_matches_topdown (project_dir : FSNode) (targets : List String)
    (h : WFNode project_dir = true) :
    (∀ p, p ∈ find_target_folders_in_project project_dir targets ↔
      MatchSpec targets project_dir p) ∧
    (find_target_folders_in_project project_dir targets).Pairwise
      fun p q => ¬(q <+: p ∧ q ≠ p) :=
  ⟨findIn_iff targets project_dir h, findIn_pairwise targets project_dir h⟩

/-- Witness for C4: in `project/DataIn/Email` with targets
`{"datain","email"}` both folders are discovered (2 matches), the nested one
via the characterization, parent before child. -/
theorem C4_find_all_matches_topdown_witness :
    WFNode exFind = true ∧
    find_target_folders_in_project exFind ["datain", "email"]
      = [["DataIn"], ["DataIn", "Email"]] ∧
    (["DataIn", "Email"] ∈ find_target_folders_in_project exFind ["datain", "email"] ↔
      MatchSpec ["datain", "email"] exFind ["DataIn", "Email"]) ∧
    (find_target_folders_in_project exFind ["datain", "email"]).Pairwise
      fun p q => ¬(q <+: p ∧ q ≠ p) := by
  refine ⟨by decide, by decide,
    (C4_find_all_matches_topdown exFind ["datain", "email"] (by decide)).1 _,
    (C4_find_all_matches_topdown exFind ["datain", "email"] (by decide)).2⟩
